import Mathlib

/-!
Verification of the DomainSentinel Traefik middleware (main.go) against its
natural-language specification.  Strings are modelled as lists of characters;
the relevant parts of Go's `net`, `strings` and `fmt` standard-library
functions are embedded faithfully so that the decision engine
(`serveHTTP`, `isPathAllowed`, `isIPAllowed`, `cleanCIDR`) can be stated and
proved about.
-/

namespace DomainSentinel

abbrev Str := List Char

def str (s : String) : Str := s.data

/-- The verdict of the middleware for one request: forward downstream
(`allow`) or reply 403 (`deny`). -/
inductive Verdict where
  | allow
  | deny
deriving DecidableEq, Repr

/-! ### Go `strings` helpers -/

/-- Split at the last occurrence of `c`: `some (before, after)`, or `none`
when `c` does not occur.  Mirrors taking `i = LastIndexByte(s, c)` and the
slices `s[:i]`, `s[i+1:]`. -/
def splitAtLast (c : Char) : Str → Option (Str × Str)
  | [] => none
  | a :: rest =>
    match splitAtLast c rest with
    | some (pre, post) => some (a :: pre, post)
    | none => if a = c then some ([], rest) else none

/-- Split at the first occurrence of `c` (Go `IndexByte` plus slicing). -/
def splitAtFirst (c : Char) : Str → Option (Str × Str)
  | [] => none
  | a :: rest =>
    if a = c then some ([], rest)
    else
      match splitAtFirst c rest with
      | some (pre, post) => some (a :: pre, post)
      | none => none

/-- Go `strings.Split(s, sep)` for a one-character separator: splits at every
occurrence, keeping empty pieces; the empty string yields `[[]]`. -/
def splitOnChar (c : Char) : Str → List Str
  | [] => [[]]
  | a :: rest =>
    if a = c then [] :: splitOnChar c rest
    else
      match splitOnChar c rest with
      | [] => [[a]]
      | r :: rs => (a :: r) :: rs

/-- Worker for `replaceAll`: scans the string; `k` counts characters of a
matched pattern occurrence still to be skipped. -/
def repGo (pat rep : Str) : Str → Nat → Str
  | [], _ => []
  | _ :: rest, k + 1 => repGo pat rep rest k
  | a :: rest, 0 =>
    if pat.isPrefixOf (a :: rest) then rep ++ repGo pat rep rest (pat.length - 1)
    else a :: repGo pat rep rest 0

/-- Go `strings.ReplaceAll(s, pat, rep)` for a non-empty pattern: replaces
non-overlapping occurrences left to right. -/
def replaceAll (pat rep s : Str) : Str := repGo pat rep s 0

def isBracketChar (c : Char) : Bool := c == '[' || c == ']'

/-- Go `strings.Trim(s, "[]")`: removes every leading and every trailing
character belonging to the cutset `{'[', ']'}`. -/
def trimSquare (s : Str) : Str :=
  ((s.dropWhile isBracketChar).reverse.dropWhile isBracketChar).reverse

/-- `fmt.Sprint` renders a `[]string` as the elements joined by single
spaces; this is the joining part. -/
def spaceJoin : List Str → Str
  | [] => []
  | [x] => x
  | x :: xs => x ++ ' ' :: spaceJoin xs

/-- Go `fmt.Sprint(allowedIPs)` for `allowedIPs : []string`:
`"[e1 e2 ... en]"`. -/
def sprintStrings (l : List Str) : Str := '[' :: spaceJoin l ++ [']']

/-! ### Go `net.SplitHostPort` -/

/-- Embedding of Go `net.SplitHostPort`; `none` stands for a non-nil error.
The port starts after the last colon; a leading `[` demands a matching `]`
immediately before that colon; extra colons are errors, and so is a `[`
anywhere past position `j` or a `]` anywhere past position `k` (`j, k = 0`
without brackets, `j, k = 1, end+1` with them) — in particular a stray
bracket inside the port segment is an error. -/
def splitHostPort (hostPort : Str) : Option (Str × Str) :=
  match splitAtLast ':' hostPort with
  | none => none
  | some (host0, port) =>
    match hostPort with
    | '[' :: _ =>
      match hostPort.findIdx? (fun c => c == ']') with
      | none => none
      | some e =>
        if e + 1 = hostPort.length then none
        else if e + 1 = host0.length then
          let host := (hostPort.drop 1).take (e - 1)
          if (hostPort.drop 1).contains '[' then none
          else if (hostPort.drop (e + 1)).contains ']' then none
          else some (host, port)
        else none
    | _ =>
      if host0.contains ':' then none
      else if hostPort.contains '[' then none
      else if hostPort.contains ']' then none
      else some (host0, port)

/-! ### Go IP address and CIDR parsing (`net.ParseIP`, `net.ParseCIDR`) -/

/-- One dotted-decimal IPv4 octet: non-empty, all digits, no leading zero,
value at most 255. -/
def parseOctet (f : Str) : Option Nat :=
  if f.isEmpty then none
  else if ¬ f.all Char.isDigit then none
  else if f.length > 1 ∧ f.headD ' ' = '0' then none
  else
    let v := f.foldl (fun a c => a * 10 + (c.toNat - 48)) 0
    if v > 255 then none else some v

/-- Go's IPv4 literal parser: exactly four octets separated by dots. -/
def parseIPv4 (s : Str) : Option (List Nat) :=
  match (splitOnChar '.' s).mapM parseOctet with
  | some fs => if fs.length = 4 then some fs else none
  | none => none

def hexVal (c : Char) : Option Nat :=
  if '0' ≤ c ∧ c ≤ '9' then some (c.toNat - 48)
  else if 'a' ≤ c ∧ c ≤ 'f' then some (c.toNat - 97 + 10)
  else if 'A' ≤ c ∧ c ≤ 'F' then some (c.toNat - 65 + 10)
  else none

def isHexChar (c : Char) : Bool := (hexVal c).isSome

def hexValue (ds : Str) : Nat := ds.foldl (fun a c => a * 16 + (hexVal c).getD 0) 0

/-- After the main loop of Go's IPv6 parser: the input must be exhausted;
a short address needs an ellipsis to expand, a full one must not have one. -/
def v6finish (s : Str) (i : Nat) (ell : Option Nat) (ip : List Nat) :
    Option (List Nat) :=
  if ¬ s.isEmpty then none
  else if i < 16 then
    match ell with
    | none => none
    | some e => some (ip.take e ++ List.replicate (16 - i) 0 ++ ip.drop e)
  else
    match ell with
    | none => some ip
    | some _ => none

/-- Main loop of Go's IPv6 parser: parse a hex group, then either an embedded
trailing IPv4 address, the end, a single colon, or a `::` ellipsis.
`i` is the number of bytes produced so far, `ell` the ellipsis position. -/
def v6loop : Nat → Str → Nat → Option Nat → List Nat → Option (List Nat)
  | 0, _, _, _, _ => none
  | fuel + 1, s, i, ell, ip =>
    if i ≥ 16 then v6finish s i ell ip
    else
      let ds := s.takeWhile isHexChar
      let rest := s.drop ds.length
      if ds.isEmpty then none
      else if hexValue ds > 65535 then none
      else
        match rest with
        | '.' :: _ =>
          if ell.isNone ∧ i ≠ 12 then none
          else if i + 4 > 16 then none
          else
            match parseIPv4 s with
            | none => none
            | some bs => v6finish [] (i + 4) ell (ip ++ bs)
        | [] => v6finish [] (i + 2) ell (ip ++ [hexValue ds / 256, hexValue ds % 256])
        | [':'] => none
        | ':' :: ':' :: rest2 =>
          if ell.isSome then none
          else
            let ip' := ip ++ [hexValue ds / 256, hexValue ds % 256]
            if rest2.isEmpty then v6finish [] (i + 2) (some (i + 2)) ip'
            else v6loop fuel rest2 (i + 2) (some (i + 2)) ip'
        | ':' :: rest2 =>
          v6loop fuel rest2 (i + 2) ell (ip ++ [hexValue ds / 256, hexValue ds % 256])
        | _ => none

/-- Go's IPv6 literal parser (`net.ParseIP` path, so a zone suffix `%...` is
rejected); produces the sixteen address bytes. -/
def parseIPv6 (s : Str) : Option (List Nat) :=
  if s.contains '%' then none
  else
    match s with
    | ':' :: ':' :: rest =>
      if rest.isEmpty then some (List.replicate 16 0)
      else v6loop (rest.length + 1) rest 0 (some 0) []
    | _ => v6loop (s.length + 1) s 0 none []

/-- Go `net.ParseIP`: dispatch on the first `.`, `:` or `%`; a nil result is
modelled as the empty byte list. -/
def parseIP (s : Str) : List Nat :=
  match s.find? (fun c => c == '.' || c == ':' || c == '%') with
  | some '.' => (parseIPv4 s).getD []
  | some ':' => (parseIPv6 s).getD []
  | _ => []

def v4InV6 : List Nat := [0, 0, 0, 0, 0, 0, 0, 0, 0, 0, 255, 255]

/-- Go `IP.To4`: a 4-byte address is returned as is, a 16-byte IPv4-mapped
address is shortened, anything else gives nil (`[]`). -/
def to4 (ip : List Nat) : List Nat :=
  if ip.length = 4 then ip
  else if ip.length = 16 ∧ ip.take 12 = v4InV6 then ip.drop 12
  else []

def cidrMaskBytes : Nat → Nat → List Nat
  | _, 0 => []
  | n, l + 1 => (if n ≥ 8 then 255 else 255 - (255 >>> n)) :: cidrMaskBytes (n - 8) l

/-- Go `net.CIDRMask(ones, bits)` for the two leg lengths that occur. -/
def cidrMask (ones bits : Nat) : Option (List Nat) :=
  if bits ≠ 32 ∧ bits ≠ 128 then none
  else if ones > bits then none
  else some (cidrMaskBytes ones (bits / 8))

/-- Go `IP.Mask`: after adapting a 16/4 length mismatch for IPv4-mapped
addresses, bytewise AND; mismatched lengths give nil (`[]`). -/
def ipMask (ip mask : List Nat) : List Nat :=
  let mask :=
    if mask.length = 16 ∧ ip.length = 4 ∧ mask.take 12 = List.replicate 12 255 then
      mask.drop 12
    else mask
  let ip :=
    if mask.length = 4 ∧ ip.length = 16 ∧ ip.take 12 = v4InV6 then ip.drop 12
    else ip
  if ip.length ≠ mask.length then []
  else List.zipWith (fun a b => a &&& b) ip mask

/-- A parsed CIDR block: masked network address plus mask, as produced by
Go `net.ParseCIDR`. -/
structure IPNet where
  ip : List Nat
  mask : List Nat
deriving DecidableEq, Repr

/-- Go's decimal reader for the prefix length (`dtoi` plus the full-length
check in `ParseCIDR`): all digits, at least one. -/
def parseDecimal (s : Str) : Option Nat :=
  if s.isEmpty then none
  else if ¬ s.all Char.isDigit then none
  else some (s.foldl (fun a c => a * 10 + (c.toNat - 48)) 0)

/-- Go `net.ParseCIDR`: split at the first `/`, parse the address (its
textual family fixes the bit width), parse the prefix length, build the
mask and mask the address.  `none` models a non-nil error. -/
def parseCIDR (s : Str) : Option IPNet :=
  match splitAtFirst '/' s with
  | none => none
  | some (addr, maskStr) =>
    match parseIP addr with
    | [] => none
    | ip =>
      let bits := if ip.length = 4 then 32 else 128
      match parseDecimal maskStr with
      | none => none
      | some n =>
        match cidrMask n bits with
        | none => none
        | some m => some ⟨ipMask ip m, m⟩

/-- Helper of Go `IPNet.Contains`: normalise the network address with `To4`
and cut the mask down when the network is 4 bytes wide. -/
def networkNumberAndMask (n : IPNet) : Option (List Nat × List Nat) :=
  let ip4 := to4 n.ip
  let ip := if ip4.isEmpty then n.ip else ip4
  if ip4.isEmpty ∧ n.ip.length ≠ 16 then none
  else if n.mask.length = 4 then
    if ip.length ≠ 4 then none else some (ip, n.mask)
  else if n.mask.length = 16 then
    if ip.length = 4 then some (ip, n.mask.drop 12) else some (ip, n.mask)
  else none

/-- Go `IPNet.Contains`: normalise the probe with `To4`, require equal
lengths, and compare masked bytes. -/
def ipnetContains (n : IPNet) (ip : List Nat) : Bool :=
  match networkNumberAndMask n with
  | none => false
  | some (nn, m) =>
    let ip4 := to4 ip
    let ip' := if ip4.isEmpty then ip else ip4
    ip'.length == nn.length &&
      List.zipWith (fun a b => a &&& b) nn m == List.zipWith (fun a b => a &&& b) ip' m

/-! ### The middleware itself (main.go) -/

/-- `PathConfig` of main.go. -/
structure PathConfig where
  path : Str
  sourceIPs : List Str
deriving DecidableEq, Repr

/-- `DomainConfig` of main.go. -/
structure DomainConfig where
  sourceIPs : List Str
  pathRules : List PathConfig
deriving DecidableEq, Repr

/-- `Config` of main.go: the rule table, a map from host name to
`DomainConfig` (association list with the unique keys of a Go map). -/
structure Config where
  domainPathRules : List (Str × DomainConfig)
deriving DecidableEq, Repr

/-- `cleanCIDR` of main.go: delete every `"║24║"`, then turn every
remaining `'║'` into a space. -/
def cleanCIDR (cidr : Str) : Str :=
  replaceAll (str "║") (str " ") (replaceAll (str "║24║") (str "") cidr)

/-- `isPathAllowed` of main.go: a pattern ending in `/*` matches by string
prefix (after dropping the `/*`); otherwise exact equality. -/
def isPathAllowed (reqPath pathPattern : Str) : Bool :=
  if (str "/*").isSuffixOf pathPattern then
    (pathPattern.take (pathPattern.length - 2)).isPrefixOf reqPath
  else reqPath == pathPattern

/-- `isIPAllowed` of main.go: strip the port from the caller address
(fail-closed), render the allow-list with `fmt.Sprint`, normalise it with
`cleanCIDR`, trim `[]`, split on spaces, and accept on the first piece that
contains the caller as a CIDR or equals it literally. -/
def isIPAllowed (remoteAddr : Str) (allowedIPs : List Str) : Bool :=
  match splitHostPort remoteAddr with
  | none => false
  | some (ip, _) =>
    let allowedIPsString := sprintStrings allowedIPs
    let cleanedAllowedIPs := cleanCIDR allowedIPsString
    let cleanedAllowedIPsArray := splitOnChar ' ' (trimSquare cleanedAllowedIPs)
    cleanedAllowedIPsArray.any fun cidr =>
      match parseCIDR cidr with
      | none => cidr == ip
      | some ipNet => ipnetContains ipNet (parseIP ip)

/-- The host-resolution step at the top of `ServeHTTP`: strip a port when a
colon is present, falling back to the raw host on a split error. -/
def resolveHost (host : Str) : Str :=
  if host.contains ':' then
    match splitHostPort host with
    | some (h, _) => h
    | none => host
  else host

/-- `ServeHTTP` of main.go as a verdict function: unknown host is allowed;
otherwise the first matching path rule's list, or the host-wide list,
decides. -/
def serveHTTP (config : Config) (host path remoteAddr : Str) : Verdict :=
  let requestedDomain := resolveHost host
  match List.lookup requestedDomain config.domainPathRules with
  | none => .allow
  | some domainConfig =>
    match domainConfig.pathRules.find? (fun r => isPathAllowed path r.path) with
    | some pathRule =>
      if isIPAllowed remoteAddr pathRule.sourceIPs then .allow else .deny
    | none =>
      if isIPAllowed remoteAddr domainConfig.sourceIPs then .allow else .deny

/-! ### Derived views used by the theorems -/

/-- The pieces the allow-list is decomposed into by `isIPAllowed`'s
stringify/clean/trim/split pipeline. -/
def fragments (ips : List Str) : List Str :=
  splitOnChar ' ' (trimSquare (cleanCIDR (sprintStrings ips)))

/-- The per-piece test of `isIPAllowed`'s loop body. -/
def entryMatches (ip frag : Str) : Bool :=
  match parseCIDR frag with
  | none => frag == ip
  | some ipNet => ipnetContains ipNet (parseIP ip)

/-- An allow-list entry that survives the stringify/clean/trim/split
pipeline unchanged: no space, no `'║'`, and no bracket at either end. -/
def cleanEntry (e : Str) : Bool :=
  !(e.contains ' ') && !(e.contains '║') &&
    (match e.head? with
     | some c => !isBracketChar c
     | none => true) &&
    (match e.getLast? with
     | some c => !isBracketChar c
     | none => true)

end DomainSentinel

/-! ### Structural lemmas about the normalization pipeline -/

namespace DomainSentinel

theorem isIPAllowed_some {remote ip port : Str} (ips : List Str)
    (h : splitHostPort remote = some (ip, port)) :
    isIPAllowed remote ips = (fragments ips).any (entryMatches ip) := by
  unfold isIPAllowed
  rw [h]
  rfl

theorem isIPAllowed_none {remote : Str} (ips : List Str)
    (h : splitHostPort remote = none) :
    isIPAllowed remote ips = false := by
  unfold isIPAllowed
  rw [h]

theorem repGo_not_mem {pat : Str} {p : Char} (hp : pat.head? = some p) (rep : Str) :
    ∀ s : Str, p ∉ s → repGo pat rep s 0 = s := by
  intro s
  induction s with
  | nil => intro _; rfl
  | cons a rest ih =>
    intro h
    obtain ⟨ps, rfl⟩ : ∃ ps, pat = p :: ps := by
      cases pat with
      | nil => cases hp
      | cons q qs => exact ⟨qs, by cases hp; rfl⟩
    have hpa : (p :: ps).isPrefixOf (a :: rest) = false := by
      have hne : (p == a) = false := by
        have : p ≠ a := fun he => h (he ▸ List.mem_cons_self a rest)
        simp [this]
      show (p == a && ps.isPrefixOf rest) = false
      rw [hne, Bool.false_and]
    show (if (p :: ps).isPrefixOf (a :: rest) then _ else a :: repGo (p :: ps) rep rest 0) = _
    rw [hpa]
    simp only [Bool.false_eq_true, if_false]
    rw [ih (fun hm => h (List.mem_cons_of_mem a hm))]

theorem mem_repGo_single (p : Char) (rep : Str) :
    ∀ (s : Str) (x : Char), x ∈ repGo [p] rep s 0 → x ∈ rep ∨ (x ∈ s ∧ x ≠ p) := by
  intro s
  induction s with
  | nil => intro x hx; cases hx
  | cons a rest ih =>
    intro x hx
    by_cases hpa : p = a
    · have hpre : ([p].isPrefixOf (a :: rest)) = true := by
        show (p == a && List.isPrefixOf [] rest) = true
        simp [hpa, List.isPrefixOf]
      rw [show repGo [p] rep (a :: rest) 0 =
          rep ++ repGo [p] rep rest 0 by
        show (if [p].isPrefixOf (a :: rest) then rep ++ repGo [p] rep rest ([p].length - 1)
              else a :: repGo [p] rep rest 0) = _
        rw [hpre]; rfl] at hx
      rcases List.mem_append.mp hx with hl | hr
      · exact Or.inl hl
      · rcases ih x hr with hl | ⟨hm, hne⟩
        · exact Or.inl hl
        · exact Or.inr ⟨List.mem_cons_of_mem a hm, hne⟩
    · have hpre : ([p].isPrefixOf (a :: rest)) = false := by
        show (p == a && List.isPrefixOf [] rest) = false
        simp [hpa]
      rw [show repGo [p] rep (a :: rest) 0 = a :: repGo [p] rep rest 0 by
        show (if [p].isPrefixOf (a :: rest) then rep ++ repGo [p] rep rest ([p].length - 1)
              else a :: repGo [p] rep rest 0) = _
        rw [hpre]; rfl] at hx
      rcases List.mem_cons.mp hx with he | hr
      · refine Or.inr ⟨?_, ?_⟩
        · rw [he]; exact List.mem_cons_self a rest
        · rw [he]; exact fun he' => hpa he'.symm
      · rcases ih x hr with hl | ⟨hm, hne⟩
        · exact Or.inl hl
        · exact Or.inr ⟨List.mem_cons_of_mem a hm, hne⟩

theorem cleanCIDR_no_bar (s : Str) : '║' ∉ cleanCIDR s := by
  intro hx
  unfold cleanCIDR replaceAll at hx
  rcases mem_repGo_single '║' (str " ") _ '║' hx with hl | ⟨_, hne⟩
  · exact absurd hl (by decide)
  · exact hne rfl

theorem cleanCIDR_of_no_bar {s : Str} (h : '║' ∉ s) : cleanCIDR s = s := by
  unfold cleanCIDR replaceAll
  rw [@repGo_not_mem (str "║24║") '║' rfl (str "") s h,
    @repGo_not_mem (str "║") '║' rfl (str " ") s h]

theorem splitOnChar_ne_nil (c : Char) : ∀ s : Str, splitOnChar c s ≠ [] := by
  intro s
  cases s with
  | nil => simp [splitOnChar]
  | cons a rest =>
    unfold splitOnChar
    by_cases hac : a = c
    · simp [hac]
    · simp only [hac, if_false]
      cases splitOnChar c rest <;> simp

theorem mem_splitOnChar_no_sep (c : Char) :
    ∀ (s : Str) (frag : Str), frag ∈ splitOnChar c s → c ∉ frag := by
  intro s
  induction s with
  | nil =>
    intro frag hf
    rcases List.mem_singleton.mp hf with rfl
    exact List.not_mem_nil c
  | cons a rest ih =>
    intro frag hf
    unfold splitOnChar at hf
    by_cases hac : a = c
    · simp only [hac, if_true] at hf
      rcases List.mem_cons.mp hf with rfl | hr
      · exact List.not_mem_nil c
      · exact ih frag hr
    · simp only [hac, if_false] at hf
      cases hsp : splitOnChar c rest with
      | nil => exact absurd hsp (splitOnChar_ne_nil c rest)
      | cons r rs =>
        rw [hsp] at hf
        rcases List.mem_cons.mp hf with rfl | hr
        · intro hm
          rcases List.mem_cons.mp hm with rfl | hm'
          · exact hac rfl
          · exact ih r (hsp ▸ List.mem_cons_self r rs) hm'
        · exact ih frag (hsp ▸ List.mem_cons_of_mem r hr)

theorem mem_of_mem_splitOnChar (c : Char) :
    ∀ (s : Str) (frag : Str), frag ∈ splitOnChar c s → ∀ x ∈ frag, x ∈ s := by
  intro s
  induction s with
  | nil =>
    intro frag hf x hx
    rcases List.mem_singleton.mp hf with rfl
    cases hx
  | cons a rest ih =>
    intro frag hf x hx
    unfold splitOnChar at hf
    by_cases hac : a = c
    · simp only [hac, if_true] at hf
      rcases List.mem_cons.mp hf with rfl | hr
      · cases hx
      · exact List.mem_cons_of_mem a (ih frag hr x hx)
    · simp only [hac, if_false] at hf
      cases hsp : splitOnChar c rest with
      | nil => exact absurd hsp (splitOnChar_ne_nil c rest)
      | cons r rs =>
        rw [hsp] at hf
        rcases List.mem_cons.mp hf with rfl | hr
        · rcases List.mem_cons.mp hx with rfl | hx'
          · exact List.mem_cons_self x rest
          · exact List.mem_cons_of_mem a (ih r (hsp ▸ List.mem_cons_self r rs) x hx')
        · exact List.mem_cons_of_mem a (ih frag (hsp ▸ List.mem_cons_of_mem r hr) x hx)

theorem splitOnChar_of_no_sep {c : Char} :
    ∀ {s : Str}, c ∉ s → splitOnChar c s = [s] := by
  intro s
  induction s with
  | nil => intro _; rfl
  | cons a rest ih =>
    intro h
    have hac : ¬ a = c := fun he => h (he ▸ List.mem_cons_self a rest)
    unfold splitOnChar
    simp only [hac, if_false]
    rw [ih (fun hm => h (List.mem_cons_of_mem a hm))]

theorem splitOnChar_sep_append {c : Char} :
    ∀ {x : Str}, c ∉ x → ∀ t : Str, splitOnChar c (x ++ c :: t) = x :: splitOnChar c t := by
  intro x
  induction x with
  | nil =>
    intro _ t
    show splitOnChar c (c :: t) = [] :: splitOnChar c t
    rw [splitOnChar]
    rw [if_pos rfl]
  | cons a rest ih =>
    intro h t
    have hac : ¬ a = c := fun he => h (he ▸ List.mem_cons_self a rest)
    show splitOnChar c (a :: (rest ++ c :: t)) = (a :: rest) :: splitOnChar c t
    rw [splitOnChar]
    rw [if_neg hac]
    rw [ih (fun hm => h (List.mem_cons_of_mem a hm)) t]

theorem mem_trimSquare {s : Str} {x : Char} (h : x ∈ trimSquare s) : x ∈ s := by
  unfold trimSquare at h
  rw [List.mem_reverse] at h
  have h1 := (List.dropWhile_sublist _).mem h
  rw [List.mem_reverse] at h1
  exact (List.dropWhile_sublist _).mem h1

end DomainSentinel

namespace DomainSentinel

theorem cleanEntry_space {e : Str} (h : cleanEntry e = true) : ' ' ∉ e := by
  unfold cleanEntry at h
  simp only [Bool.and_eq_true] at h
  obtain ⟨⟨⟨ha, _⟩, _⟩, _⟩ := h
  simpa using ha

theorem cleanEntry_bar {e : Str} (h : cleanEntry e = true) : '║' ∉ e := by
  unfold cleanEntry at h
  simp only [Bool.and_eq_true] at h
  obtain ⟨⟨⟨_, hb⟩, _⟩, _⟩ := h
  simpa using hb

theorem cleanEntry_head {e : Str} {b : Char} (h : cleanEntry e = true)
    (hb : e.head? = some b) : isBracketChar b = false := by
  unfold cleanEntry at h
  simp only [Bool.and_eq_true] at h
  obtain ⟨⟨⟨_, _⟩, hc⟩, _⟩ := h
  rw [hb] at hc
  simpa using hc

theorem cleanEntry_last {e : Str} {b : Char} (h : cleanEntry e = true)
    (hb : e.getLast? = some b) : isBracketChar b = false := by
  unfold cleanEntry at h
  simp only [Bool.and_eq_true] at h
  obtain ⟨⟨⟨_, _⟩, _⟩, hd⟩ := h
  rw [hb] at hd
  simpa using hd

theorem mem_spaceJoin {x : Char} :
    ∀ {ips : List Str}, x ∈ spaceJoin ips → x = ' ' ∨ ∃ e ∈ ips, x ∈ e
  | [], h => by cases h
  | [e], h => Or.inr ⟨e, by simp, h⟩
  | e :: f :: t, h => by
    rw [show spaceJoin (e :: f :: t) = e ++ ' ' :: spaceJoin (f :: t) from rfl] at h
    rcases List.mem_append.mp h with he | hr
    · exact Or.inr ⟨e, by simp, he⟩
    · rcases List.mem_cons.mp hr with he | hj
      · exact Or.inl he
      · rcases mem_spaceJoin hj with hsp | ⟨g, hg, hxg⟩
        · exact Or.inl hsp
        · exact Or.inr ⟨g, List.mem_cons_of_mem e hg, hxg⟩

theorem spaceJoin_head_ok :
    ∀ (ips : List Str), (∀ e ∈ ips, cleanEntry e = true) →
      ∀ b, (spaceJoin ips).head? = some b → isBracketChar b = false
  | [], _, b, hb => by cases hb
  | [x], hc, b, hb => cleanEntry_head (hc x (by simp)) hb
  | x :: y :: t, hc, b, hb => by
    rw [show spaceJoin (x :: y :: t) = x ++ ' ' :: spaceJoin (y :: t) from rfl] at hb
    rw [List.head?_append] at hb
    cases hx : x.head? with
    | some c =>
      rw [hx] at hb
      simp only [Option.or_some, Option.some.injEq] at hb
      exact hb ▸ cleanEntry_head (hc x (by simp)) hx
    | none =>
      rw [hx] at hb
      simp only [Option.none_or, List.head?_cons, Option.some.injEq] at hb
      rw [← hb]
      decide

theorem spaceJoin_last_ok :
    ∀ (ips : List Str), (∀ e ∈ ips, cleanEntry e = true) →
      ∀ b, (spaceJoin ips).getLast? = some b → isBracketChar b = false
  | [], _, b, hb => by cases hb
  | [x], hc, b, hb => cleanEntry_last (hc x (by simp)) hb
  | x :: y :: t, hc, b, hb => by
    rw [show spaceJoin (x :: y :: t) = x ++ ' ' :: spaceJoin (y :: t) from rfl] at hb
    rw [List.getLast?_append_cons] at hb
    cases hsj : spaceJoin (y :: t) with
    | nil =>
      rw [hsj] at hb
      have hbs : b = ' ' := by
        have : (' ' :: ([] : Str)).getLast? = some ' ' := rfl
        rw [this] at hb
        exact (Option.some.injEq _ _ ▸ hb).symm
      rw [hbs]
      decide
    | cons c cs =>
      rw [hsj, List.getLast?_cons_cons] at hb
      exact spaceJoin_last_ok (y :: t) (fun e he => hc e (List.mem_cons_of_mem x he)) b
        (hsj ▸ hb)

theorem trimSquare_wrap (body : Str)
    (h1 : ∀ b, body.head? = some b → isBracketChar b = false)
    (h2 : ∀ b, body.getLast? = some b → isBracketChar b = false) :
    trimSquare ('[' :: (body ++ [']'])) = body := by
  unfold trimSquare
  have hdrop1 : List.dropWhile isBracketChar ('[' :: (body ++ [']'])) =
      List.dropWhile isBracketChar (body ++ [']']) := by
    rw [List.dropWhile_cons]
    rw [show isBracketChar '[' = true by decide]
    simp only [if_true]
  rw [hdrop1]
  cases body with
  | nil => rfl
  | cons b bs =>
    have hb : isBracketChar b = false := h1 b rfl
    have hdrop2 : List.dropWhile isBracketChar ((b :: bs) ++ [']']) = b :: (bs ++ [']']) := by
      show List.dropWhile isBracketChar (b :: (bs ++ [']'])) = _
      rw [List.dropWhile_cons, hb]
      simp only [Bool.false_eq_true, if_false]
    rw [hdrop2]
    rw [show (b :: (bs ++ [']'])).reverse = ']' :: (b :: bs).reverse by simp]
    rw [List.dropWhile_cons]
    rw [show isBracketChar ']' = true by decide]
    simp only [if_true]
    have hrev : ∃ c cs, (b :: bs).reverse = c :: cs := by
      cases hr : (b :: bs).reverse with
      | nil => exact absurd (List.reverse_eq_nil_iff.mp hr) (by simp)
      | cons c cs => exact ⟨c, cs, rfl⟩
    obtain ⟨c, cs, hr⟩ := hrev
    have hlast : (b :: bs).getLast? = some c := by
      rw [← List.head?_reverse, hr]
      rfl
    have hc : isBracketChar c = false := h2 c hlast
    rw [hr, List.dropWhile_cons, hc]
    simp only [Bool.false_eq_true, if_false]
    rw [← hr, List.reverse_reverse]

theorem splitOnChar_spaceJoin :
    ∀ {ips : List Str}, ips ≠ [] → (∀ e ∈ ips, ' ' ∉ e) →
      splitOnChar ' ' (spaceJoin ips) = ips
  | [], hne, _ => absurd rfl hne
  | [x], _, hsp => by
    show splitOnChar ' ' x = [x]
    exact splitOnChar_of_no_sep (hsp x (by simp))
  | x :: y :: t, _, hsp => by
    show splitOnChar ' ' (x ++ ' ' :: spaceJoin (y :: t)) = x :: (y :: t)
    rw [splitOnChar_sep_append (hsp x (by simp)) (spaceJoin (y :: t))]
    rw [@splitOnChar_spaceJoin (y :: t) (by simp)
      (fun e he => hsp e (List.mem_cons_of_mem x he))]

theorem fragments_eq_self {ips : List Str} (hne : ips ≠ [])
    (hclean : ∀ e ∈ ips, cleanEntry e = true) : fragments ips = ips := by
  have hbar : '║' ∉ sprintStrings ips := by
    intro hm
    unfold sprintStrings at hm
    rcases List.mem_cons.mp hm with he | hm'
    · exact absurd he (by decide)
    · rcases List.mem_append.mp hm' with hj | he
      · rcases mem_spaceJoin hj with he | ⟨e, hee, hme⟩
        · exact absurd he (by decide)
        · exact cleanEntry_bar (hclean e hee) hme
      · exact absurd (List.mem_singleton.mp he) (by decide)
  unfold fragments
  rw [cleanCIDR_of_no_bar hbar]
  show splitOnChar ' ' (trimSquare ('[' :: (spaceJoin ips ++ [']']))) = ips
  rw [trimSquare_wrap _ (spaceJoin_head_ok ips hclean) (spaceJoin_last_ok ips hclean)]
  exact splitOnChar_spaceJoin hne (fun e he => cleanEntry_space (hclean e he))

theorem perm_any {l1 l2 : List Str} (f : Str → Bool) (h : l1.Perm l2) :
    l1.any f = l2.any f := by
  by_cases h1 : l1.any f = true
  · obtain ⟨x, hx, hfx⟩ := List.any_eq_true.mp h1
    rw [h1]
    exact (List.any_eq_true.mpr ⟨x, h.mem_iff.mp hx, hfx⟩).symm
  · rw [Bool.not_eq_true] at h1
    rw [h1]
    cases hb : l2.any f with
    | false => rfl
    | true =>
      obtain ⟨x, hx, hfx⟩ := List.any_eq_true.mp hb
      have := List.any_eq_true.mpr ⟨x, h.mem_iff.mpr hx, hfx⟩
      rw [h1] at this
      cases this

theorem find?_first {α : Type} (p : α → Bool) (pre : List α) (x : α) (post : List α)
    (hpre : ∀ r ∈ pre, p r = false) (hx : p x = true) :
    List.find? p (pre ++ x :: post) = some x := by
  induction pre with
  | nil => exact List.find?_cons_of_pos post hx
  | cons a t ih =>
    have ha : p a = false := hpre a (List.mem_cons_self a t)
    show List.find? p (a :: (t ++ x :: post)) = some x
    rw [List.find?_cons_of_neg _ (by rw [ha]; simp)]
    exact ih (fun r hr => hpre r (List.mem_cons_of_mem a hr))

theorem serveHTTP_pathRule (config : Config) (host path remote : Str)
    (dc : DomainConfig) (rule : PathConfig)
    (hdc : List.lookup (resolveHost host) config.domainPathRules = some dc)
    (hrule : dc.pathRules.find? (fun r => isPathAllowed path r.path) = some rule) :
    serveHTTP config host path remote =
      if isIPAllowed remote rule.sourceIPs then Verdict.allow else Verdict.deny := by
  simp only [serveHTTP, hdc, hrule]

end DomainSentinel

/-! ### Claims -/

namespace DomainSentinel

/-- C1: for every request whose resolved host is not a key of the rule table
(`config.domainPathRules`), the verdict is ALLOW — the request is forwarded
to the next handler — for every path and every caller address, including
malformed caller addresses. -/
theorem c1_unknown_host_allows (config : Config) (host path remote : Str)
    (h : List.lookup (resolveHost host) config.domainPathRules = none) :
    serveHTTP config host path remote = Verdict.allow := by
  simp only [serveHTTP, h]

theorem c1_unknown_host_allows_witness :
    serveHTTP ⟨[(str "www3.example.com", ⟨[str "192.168.1.0/24"], []⟩)]⟩
      (str "other.example.com:8080") (str "/admin") (str "no-port-here") =
      Verdict.allow :=
  c1_unknown_host_allows _ _ _ _ (by decide)

/-- C2 (amended): for a pattern ending in the literal suffix `/*`, a request
path matches exactly when it starts with the pattern stripped of `/*`; in
particular `/admin/*` matches `/admin`, `/admin/`, `/admin/settings` — and,
by the same pure string-prefix rule, also `/administration`. -/
theorem c2_wildcard_is_string_prefix :
    (∀ reqPath pat : Str, (str "/*").isSuffixOf pat = true →
        isPathAllowed reqPath pat = (pat.take (pat.length - 2)).isPrefixOf reqPath) ∧
      isPathAllowed (str "/admin") (str "/admin/*") = true ∧
      isPathAllowed (str "/admin/") (str "/admin/*") = true ∧
      isPathAllowed (str "/admin/settings") (str "/admin/*") = true ∧
      isPathAllowed (str "/administration") (str "/admin/*") = true := by
  refine ⟨?_, by decide, by decide, by decide, by decide⟩
  intro reqPath pat h
  unfold isPathAllowed
  rw [h]
  simp only [if_true]

theorem c2_wildcard_is_string_prefix_witness :
    isPathAllowed (str "/admin/settings") (str "/admin/*") =
      ((str "/admin/*").take ((str "/admin/*").length - 2)).isPrefixOf
        (str "/admin/settings") :=
  c2_wildcard_is_string_prefix.1 (str "/admin/settings") (str "/admin/*") (by decide)

/-- C2, the claim as frozen, is false on the code: the pattern `/admin/*`
does match the request path `/administration`, because matching is by pure
string prefix with no segment boundary. -/
theorem c2_administration_counterexample :
    isPathAllowed (str "/administration") (str "/admin/*") = true := by decide

/-- C3: when the resolved host is present and some path rule matches the
request path, the verdict is computed from that path rule's allow-list
alone; the conclusion does not mention the host-wide list `dc.sourceIPs`,
so the host-wide list is never consulted, whatever it contains. -/
theorem c3_path_rule_precedence (config : Config) (host path remote : Str)
    (dc : DomainConfig) (rule : PathConfig)
    (hdc : List.lookup (resolveHost host) config.domainPathRules = some dc)
    (hrule : dc.pathRules.find? (fun r => isPathAllowed path r.path) = some rule) :
    serveHTTP config host path remote =
      if isIPAllowed remote rule.sourceIPs then Verdict.allow else Verdict.deny :=
  serveHTTP_pathRule config host path remote dc rule hdc hrule

theorem c3_path_rule_precedence_witness :
    serveHTTP ⟨[(str "h", ⟨[str "0.0.0.0/0"], [⟨str "/a/*", []⟩]⟩)]⟩
      (str "h") (str "/a/x") (str "9.9.9.9:1") = Verdict.deny := by
  have h := c3_path_rule_precedence
    ⟨[(str "h", ⟨[str "0.0.0.0/0"], [⟨str "/a/*", []⟩]⟩)]⟩
    (str "h") (str "/a/x") (str "9.9.9.9:1")
    ⟨[str "0.0.0.0/0"], [⟨str "/a/*", []⟩]⟩ ⟨str "/a/*", []⟩
    (by decide) (by decide)
  rw [h]
  decide

/-- C4: first-match-wins — when the ordered path rules are
`pre ++ rule :: post`, no rule in `pre` matches, and `rule` matches, the
verdict is computed from `rule`'s allow-list; the rules in `post` (which may
also match) are never consulted. -/
theorem c4_first_match_wins (config : Config) (host path remote : Str)
    (dc : DomainConfig) (pre : List PathConfig) (rule : PathConfig)
    (post : List PathConfig)
    (hdc : List.lookup (resolveHost host) config.domainPathRules = some dc)
    (hsplit : dc.pathRules = pre ++ rule :: post)
    (hpre : ∀ r ∈ pre, isPathAllowed path r.path = false)
    (hrule : isPathAllowed path rule.path = true) :
    serveHTTP config host path remote =
      if isIPAllowed remote rule.sourceIPs then Verdict.allow else Verdict.deny := by
  apply serveHTTP_pathRule config host path remote dc rule hdc
  rw [hsplit]
  exact find?_first _ pre rule post hpre hrule

theorem c4_first_match_wins_witness :
    serveHTTP ⟨[(str "h", ⟨[],
        [⟨str "/a/*", []⟩, ⟨str "/a/*", [str "0.0.0.0/0"]⟩]⟩)]⟩
      (str "h") (str "/a/x") (str "1.2.3.4:9") = Verdict.deny := by
  have h := c4_first_match_wins
    ⟨[(str "h", ⟨[], [⟨str "/a/*", []⟩, ⟨str "/a/*", [str "0.0.0.0/0"]⟩]⟩)]⟩
    (str "h") (str "/a/x") (str "1.2.3.4:9")
    ⟨[], [⟨str "/a/*", []⟩, ⟨str "/a/*", [str "0.0.0.0/0"]⟩]⟩
    [] ⟨str "/a/*", []⟩ [⟨str "/a/*", [str "0.0.0.0/0"]⟩]
    (by decide) rfl (by intro r hr; cases hr) (by decide)
  rw [h]
  decide

/-- C6: fail-closed on a malformed caller address — when the host is present
in the rule table and splitting `RemoteAddr` into address and port fails,
the membership evaluation returns not-allowed for every allow-list, and the
verdict is DENY. -/
theorem c6_malformed_remote_denies (config : Config) (host path remote : Str)
    (dc : DomainConfig)
    (hdc : List.lookup (resolveHost host) config.domainPathRules = some dc)
    (hsplit : splitHostPort remote = none) :
    (∀ ips : List Str, isIPAllowed remote ips = false) ∧
      serveHTTP config host path remote = Verdict.deny := by
  have hip : ∀ ips : List Str, isIPAllowed remote ips = false :=
    fun ips => isIPAllowed_none ips hsplit
  refine ⟨hip, ?_⟩
  cases hfind : dc.pathRules.find? (fun r => isPathAllowed path r.path) with
  | none =>
    simp only [serveHTTP, hdc, hfind, hip]
    rfl
  | some rule =>
    simp only [serveHTTP, hdc, hfind, hip]
    rfl

theorem c6_malformed_remote_denies_witness :
    isIPAllowed (str "no-port-here") [str "0.0.0.0/0"] = false ∧
      serveHTTP ⟨[(str "h", ⟨[str "0.0.0.0/0"], []⟩)]⟩
        (str "h") (str "/") (str "no-port-here") = Verdict.deny := by
  have h := c6_malformed_remote_denies
    ⟨[(str "h", ⟨[str "0.0.0.0/0"], []⟩)]⟩ (str "h") (str "/")
    (str "no-port-here") ⟨[str "0.0.0.0/0"], []⟩ (by decide) (by decide)
  exact ⟨h.1 [str "0.0.0.0/0"], h.2⟩

end DomainSentinel

namespace DomainSentinel

/-- C5 (amended): for allow-lists all of whose entries survive the
stringify/normalize round trip (no space, no `'║'`, no bracket at either
end), an entry that fails CIDR parsing still allows a caller address
exactly string-equal to it; with any other caller the entry contributes
nothing and the verdict is exactly the disjunction over the remaining
entries, so the failed parse does not abort evaluation. -/
theorem c5_literal_fallback (remote ip port e : Str) (pre post : List Str)
    (hsp : splitHostPort remote = some (ip, port))
    (hclean : ∀ x ∈ pre ++ e :: post, cleanEntry x = true)
    (hparse : parseCIDR e = none) :
    (ip = e → isIPAllowed remote (pre ++ e :: post) = true) ∧
      (ip ≠ e → isIPAllowed remote (pre ++ e :: post) =
        (pre ++ post).any (entryMatches ip)) := by
  have hne : pre ++ e :: post ≠ [] := by simp
  have hfr : fragments (pre ++ e :: post) = pre ++ e :: post :=
    fragments_eq_self hne hclean
  have hiseq : isIPAllowed remote (pre ++ e :: post) =
      (pre ++ e :: post).any (entryMatches ip) := by
    rw [isIPAllowed_some _ hsp, hfr]
  constructor
  · intro he
    rw [hiseq]
    apply List.any_eq_true.mpr
    refine ⟨e, by simp, ?_⟩
    unfold entryMatches
    rw [hparse]
    show (e == ip) = true
    rw [he]
    simp
  · intro hne'
    rw [hiseq]
    have hfalse : entryMatches ip e = false := by
      unfold entryMatches
      rw [hparse]
      show (e == ip) = false
      simp
      exact fun h => hne' h.symm
    rw [List.any_append, List.any_cons, hfalse, Bool.false_or, ← List.any_append]

/-- C5, as frozen, is false on the code: the entry `"a b"` fails CIDR
parsing and the caller address (after port stripping) is exactly `"a b"`,
yet membership evaluates to not-allowed, because the normalization splits
the entry at its space before any comparison happens. -/
theorem c5_literal_fallback_counterexample :
    parseCIDR (str "a b") = none ∧
      splitHostPort (str "a b:1") = some (str "a b", str "1") ∧
      isIPAllowed (str "a b:1") [str "a b"] = false := by
  refine ⟨by decide, by decide, by decide⟩

theorem c5_literal_fallback_witness :
    isIPAllowed (str "not-an-ip:7") [str "not-an-ip"] = true := by
  have h := c5_literal_fallback (str "not-an-ip:7") (str "not-an-ip") (str "7")
    (str "not-an-ip") [] [] (by decide) (by decide) (by decide)
  exact h.1 rfl

/-- C7 (amended): for a host present in the rule table with an empty
host-wide allow-list and no path rules, the verdict is DENY for every
caller address except the degenerate one whose port-stripped address is the
empty string (for example `RemoteAddr = ":80"`): the stringified empty list
normalizes to one empty fragment, which such a caller matches literally. -/
theorem c7_empty_list_denies (config : Config) (host path remote : Str)
    (dc : DomainConfig)
    (hdc : List.lookup (resolveHost host) config.domainPathRules = some dc)
    (hips : dc.sourceIPs = []) (hrules : dc.pathRules = []) :
    serveHTTP config host path remote =
      match splitHostPort remote with
      | some ([], _) => Verdict.allow
      | _ => Verdict.deny := by
  have hfind : dc.pathRules.find? (fun r => isPathAllowed path r.path) = none := by
    rw [hrules]
    rfl
  cases hsp : splitHostPort remote with
  | none =>
    simp only [serveHTTP, hdc, hfind, hips, isIPAllowed_none ([] : List Str) hsp]
    rfl
  | some pr =>
    obtain ⟨ip, port⟩ := pr
    have h1 : isIPAllowed remote ([] : List Str) = (([] : Str) == ip) := by
      rw [isIPAllowed_some ([] : List Str) hsp]
      rw [show fragments ([] : List Str) = [[]] from rfl]
      rw [List.any_cons, List.any_nil, Bool.or_false]
      rfl
    cases ip with
    | nil =>
      simp only [serveHTTP, hdc, hfind, hips, h1]
      rfl
    | cons c cs =>
      simp only [serveHTTP, hdc, hfind, hips, h1]
      rfl

/-- C7, as frozen, is false on the code: with the host present, an empty
host-wide allow-list and no path rules, the caller with `RemoteAddr ":80"`
is ALLOWED, not denied. -/
theorem c7_empty_caller_counterexample :
    serveHTTP ⟨[(str "h", ⟨[], []⟩)]⟩ (str "h") (str "/") (str ":80") =
      Verdict.allow := by decide

theorem c7_empty_list_denies_witness :
    serveHTTP ⟨[(str "h", ⟨[], []⟩)]⟩ (str "h") (str "/") (str "1.2.3.4:5") =
      Verdict.deny := by
  have h := c7_empty_list_denies ⟨[(str "h", ⟨[], []⟩)]⟩ (str "h") (str "/")
    (str "1.2.3.4:5") ⟨[], []⟩ (by decide) rfl rfl
  rw [h]
  decide

theorem contains_zero4 (b : List Nat) (h4 : b.length = 4) :
    ipnetContains ⟨[0, 0, 0, 0], [0, 0, 0, 0]⟩ b = true := by
  cases b with
  | nil => simp at h4
  | cons x0 t0 =>
    cases t0 with
    | nil => simp at h4
    | cons x1 t1 =>
      cases t1 with
      | nil => simp at h4
      | cons x2 t2 =>
        cases t2 with
        | nil => simp at h4
        | cons x3 t3 =>
          cases t3 with
          | nil =>
            unfold ipnetContains
            rw [show networkNumberAndMask ⟨[0, 0, 0, 0], [0, 0, 0, 0]⟩ =
                some ([0, 0, 0, 0], [0, 0, 0, 0]) from rfl]
            simp [to4]
          | cons x4 t4 =>
            simp only [List.length_cons] at h4
            omega

theorem contains_zero4_not_v6 (b : List Nat) (h16 : b.length = 16)
    (hto4 : to4 b = []) :
    ipnetContains ⟨[0, 0, 0, 0], [0, 0, 0, 0]⟩ b = false := by
  unfold ipnetContains
  rw [show networkNumberAndMask ⟨[0, 0, 0, 0], [0, 0, 0, 0]⟩ =
      some ([0, 0, 0, 0], [0, 0, 0, 0]) from rfl]
  simp [hto4, h16]

/-- C8 (amended): the allow-list entry `0.0.0.0/0` matches every caller
whose port-stripped address parses as an IPv4 address (so the membership
verdict is ALLOW for every such caller), and does not match callers whose
address parses as an IPv6 address that is NOT IPv4-mapped.  An IPv4-mapped
IPv6 caller such as `::ffff:8.8.8.8` IS matched — the one correction to the
frozen claim, witnessed by the counterexample. -/
theorem c8_universal_block (remote ip port : Str) (b : List Nat)
    (hsp : splitHostPort remote = some (ip, port))
    (hb : parseIP ip = b) :
    (b.length = 4 → isIPAllowed remote [str "0.0.0.0/0"] = true) ∧
      (b.length = 16 → to4 b = [] →
        isIPAllowed remote [str "0.0.0.0/0"] = false) := by
  have hiseq := @isIPAllowed_some remote ip port [str "0.0.0.0/0"] hsp
  rw [show fragments [str "0.0.0.0/0"] = [str "0.0.0.0/0"] from rfl] at hiseq
  rw [List.any_cons, List.any_nil, Bool.or_false] at hiseq
  have hentry : entryMatches ip (str "0.0.0.0/0") =
      ipnetContains ⟨[0, 0, 0, 0], [0, 0, 0, 0]⟩ (parseIP ip) := by
    unfold entryMatches
    rw [show parseCIDR (str "0.0.0.0/0") =
        some ⟨[0, 0, 0, 0], [0, 0, 0, 0]⟩ by decide]
  rw [hentry, hb] at hiseq
  exact ⟨fun h4 => by rw [hiseq]; exact contains_zero4 b h4,
    fun h16 hto4 => by rw [hiseq]; exact contains_zero4_not_v6 b h16 hto4⟩

/-- C8, as frozen, is false on the code: `::ffff:8.8.8.8` is a syntactically
valid IPv6 caller address (it parses under the IPv6 grammar), yet the entry
`0.0.0.0/0` matches it, because Go normalizes IPv4-mapped addresses with
`To4` before the containment test. -/
theorem c8_mapped_v6_counterexample :
    (parseIPv6 (str "::ffff:8.8.8.8")).isSome = true ∧
      isIPAllowed (str "[::ffff:8.8.8.8]:1") [str "0.0.0.0/0"] = true := by
  refine ⟨by decide, by decide⟩

theorem c8_universal_block_witness :
    isIPAllowed (str "198.51.100.7:9") [str "0.0.0.0/0"] = true ∧
      isIPAllowed (str "[2001:db8::1]:9") [str "0.0.0.0/0"] = false := by
  constructor
  · exact (c8_universal_block (str "198.51.100.7:9") (str "198.51.100.7")
      (str "9") [198, 51, 100, 7] (by decide) (by decide)).1 (by decide)
  · exact (c8_universal_block (str "[2001:db8::1]:9") (str "2001:db8::1")
      (str "9") [32, 1, 13, 184, 0, 0, 0, 0, 0, 0, 0, 0, 0, 0, 0, 1]
      (by decide) (by decide)).2 (by decide) (by decide)

/-- C9 (amended): for a NON-EMPTY allow-list whose entries all survive the
stringify/normalize round trip (no space, no `'║'`, no bracket at either
end), the membership verdict equals the logical OR of the per-entry match
results, and is unchanged under any permutation of the entries. -/
theorem c9_membership_or_invariant (remote ip port : Str) (ips1 ips2 : List Str)
    (hsp : splitHostPort remote = some (ip, port))
    (hne : ips1 ≠ [])
    (hclean : ∀ e ∈ ips1, cleanEntry e = true)
    (hperm : ips1.Perm ips2) :
    isIPAllowed remote ips1 = ips1.any (entryMatches ip) ∧
      isIPAllowed remote ips1 = isIPAllowed remote ips2 := by
  have h1 : isIPAllowed remote ips1 = ips1.any (entryMatches ip) := by
    rw [isIPAllowed_some _ hsp, fragments_eq_self hne hclean]
  have hne2 : ips2 ≠ [] := by
    intro h
    rw [h] at hperm
    exact hne hperm.eq_nil
  have hclean2 : ∀ e ∈ ips2, cleanEntry e = true :=
    fun e he => hclean e (hperm.mem_iff.mpr he)
  have h2 : isIPAllowed remote ips2 = ips2.any (entryMatches ip) := by
    rw [isIPAllowed_some _ hsp, fragments_eq_self hne2 hclean2]
  exact ⟨h1, by rw [h1, h2]; exact perm_any _ hperm⟩

/-- C9, as frozen, is false on the code: `["[a", "b"]` and `["b", "[a"]`
are permutations of each other, yet for the caller `a:1` the first list
gives ALLOW while the second gives DENY; the ALLOW verdict also differs
from the OR of the per-entry match results, which is false.  The cause is
the bracket trimming of the stringified list, which mangles a leading `[`
of whichever entry comes first. -/
theorem c9_permutation_counterexample :
    ([str "[a", str "b"]).Perm [str "b", str "[a"] ∧
      isIPAllowed (str "a:1") [str "[a", str "b"] = true ∧
      isIPAllowed (str "a:1") [str "b", str "[a"] = false ∧
      ([str "[a", str "b"]).any (entryMatches (str "a")) = false := by
  refine ⟨by decide, by decide, by decide, by decide⟩

theorem c9_membership_or_invariant_witness :
    isIPAllowed (str "5.6.7.8:1") [str "1.2.3.4", str "5.6.7.8"] =
      ([str "1.2.3.4", str "5.6.7.8"]).any (entryMatches (str "5.6.7.8")) ∧
      isIPAllowed (str "5.6.7.8:1") [str "1.2.3.4", str "5.6.7.8"] =
        isIPAllowed (str "5.6.7.8:1") [str "5.6.7.8", str "1.2.3.4"] :=
  c9_membership_or_invariant (str "5.6.7.8:1") (str "5.6.7.8") (str "1")
    [str "1.2.3.4", str "5.6.7.8"] [str "5.6.7.8", str "1.2.3.4"]
    (by decide) (by decide) (by decide) (by decide)

theorem fragments_no_space {ips : List Str} {frag : Str}
    (h : frag ∈ fragments ips) : ' ' ∉ frag :=
  mem_splitOnChar_no_sep ' ' _ frag h

theorem fragments_no_bar {ips : List Str} {frag : Str}
    (h : frag ∈ fragments ips) : '║' ∉ frag := by
  intro hx
  have h1 : '║' ∈ trimSquare (cleanCIDR (sprintStrings ips)) :=
    mem_of_mem_splitOnChar ' ' _ frag h '║' hx
  exact cleanCIDR_no_bar _ (mem_trimSquare h1)

/-- C10 (amended): the membership evaluator never tests the configured
entries themselves — it renders the list as `"[e1 e2 ...]"`, deletes every
`"║24║"`, replaces every remaining `'║'` by a space, trims the brackets,
splits on single spaces, and tests each resulting fragment as a CIDR or
literal (first part).  An entry containing a space or `'║'` is never
compared literally to the caller address, since no fragment contains those
characters (second part).  A caller address equal to a fragment of the
normalized list THAT FAILS CIDR PARSING is allowed (third part — the
parse-failure proviso is the correction to the frozen claim). -/
theorem c10_normalization_quirk :
    (∀ (remote ip port : Str) (ips : List Str),
        splitHostPort remote = some (ip, port) →
        isIPAllowed remote ips =
          (splitOnChar ' ' (trimSquare (cleanCIDR (sprintStrings ips)))).any
            (entryMatches ip)) ∧
      (∀ (ips : List Str) (e : Str), e ∈ ips → (' ' ∈ e ∨ '║' ∈ e) →
        e ∉ fragments ips) ∧
      (∀ (remote ip port : Str) (ips : List Str) (frag : Str),
        splitHostPort remote = some (ip, port) →
        frag ∈ fragments ips → parseCIDR frag = none → ip = frag →
        isIPAllowed remote ips = true) := by
  refine ⟨?_, ?_, ?_⟩
  · intro remote ip port ips hsp
    exact isIPAllowed_some ips hsp
  · intro ips e _ hsb hmem
    rcases hsb with hs | hb2
    · exact fragments_no_space hmem hs
    · exact fragments_no_bar hmem hb2
  · intro remote ip port ips frag hsp hmem hparse hip
    rw [isIPAllowed_some ips hsp]
    apply List.any_eq_true.mpr
    refine ⟨frag, hmem, ?_⟩
    unfold entryMatches
    rw [hparse]
    show (frag == ip) = true
    rw [hip]
    simp

/-- C10, as frozen, is false in its last part: the entry `"10.0.0.0/8 x"`
contains a space and `"10.0.0.0/8"` is one of its space-separated
fragments, yet a caller address equal to that fragment is NOT allowed: the
fragment parses as a CIDR, so it is never compared literally, and the
caller string `10.0.0.0/8` is not a parseable address either. -/
theorem c10_fragment_counterexample :
    ' ' ∈ str "10.0.0.0/8 x" ∧
      str "10.0.0.0/8" ∈ splitOnChar ' ' (cleanCIDR (str "10.0.0.0/8 x")) ∧
      splitHostPort (str "10.0.0.0/8:1") = some (str "10.0.0.0/8", str "1") ∧
      isIPAllowed (str "10.0.0.0/8:1") [str "10.0.0.0/8 x"] = false := by
  refine ⟨by decide, by decide, by decide, by decide⟩

theorem c10_normalization_quirk_witness :
    isIPAllowed (str "xx:1") [str "1.2.3.4 xx"] = true :=
  c10_normalization_quirk.2.2 (str "xx:1") (str "xx") (str "1")
    [str "1.2.3.4 xx"] (str "xx") (by decide) (by decide) (by decide) rfl

end DomainSentinel
